import Mathlib

/-!
Shallow embedding of the strided tensor bridge in `src/python/common.h` of
the enoki Python binding layer: the recursive strided copy routines
`copy_array_gather` and `copy_array_scatter`, the dtype name mapping
`torch_dtype`, the conversion entry points `torch_to_enoki` /
`enoki_to_torch`, and the bound `__getitem__` element access.

Modelling conventions:
* machine integers are `Nat`; the `uint32_t` casts performed at the
  innermost dimension of the copy routines are modelled by `% M` with
  `M = 2^32`;
* a logical (possibly nested) array value is `NArr α`: `leaf` is the
  depth-1 dynamically sized vector, `node` a list of components;
* flat external memory is a total function `Nat → α`; a scatter returns
  the updated function;
* the shape/stride pair of each dimension is carried as one list
  `List (Nat × Nat)` (the C++ passes two `std::array`s of one common
  compile-time length `Dim`);
* Python exceptions become `Option`/`none`.
-/

namespace Enoki

/-- Modulus of `uint32_t` arithmetic. -/
def M : Nat := 4294967296

/-- Logical (nested) array value: `leaf` is a depth-1 CUDAArray of scalars,
`node` an `Array<..., k>` of components. -/
inductive NArr (α : Type) where
  | leaf : List α → NArr α
  | node : List (NArr α) → NArr α

/-- Embedding of `copy_array_gather` (common.h lines 333-352).
At the last dimension the C++ computes
`index = fmadd(arange<UInt32>((uint32_t) shape[Index]), (uint32_t) strides[Index], (uint32_t) offset)`
in 32-bit arithmetic and gathers; otherwise it loops `i < shape[Index]`,
recursing into `target.coeff(i)` with `offset + i * strides[Index]`. -/
def copy_array_gather (src : Nat → α) : Nat → List (Nat × Nat) → NArr α
  | offset, [(s, st)] =>
      .leaf ((List.range (s % M)).map fun i => src ((offset + i * st) % M))
  | offset, (s, st) :: d :: dims =>
      .node ((List.range s).map fun i =>
        copy_array_gather src (offset + i * st) (d :: dims))
  | _, [] => .node []

/-- Sequential last-write-wins store of key/value pairs into a flat memory,
modelling a vectorized `scatter(target, source, index)`. -/
def writeList : List (Nat × α) → (Nat → α) → Nat → α
  | [], tgt => tgt
  | (k, v) :: rest, tgt => writeList rest (Function.update tgt k v)

/-- Embedding of `copy_array_scatter` (common.h lines 354-373).
At the last dimension the 32-bit index vector is computed exactly as in
the gather and `scatter(target, source, index)` writes the depth-1 slice;
otherwise it loops `i < shape[Index]`, recursing on `source.coeff(i)` with
`offset + i * strides[Index]`. -/
def copy_array_scatter : Nat → List (Nat × Nat) → NArr α → (Nat → α) → Nat → α
  | offset, [(s, st)], .leaf xs, tgt =>
      writeList ((((List.range (s % M)).map fun i => (offset + i * st) % M)).zip xs) tgt
  | offset, (s, st) :: d :: dims, .node as, tgt =>
      ((List.range s).zip as).foldl
        (fun t p => copy_array_scatter (offset + p.1 * st) (d :: dims) p.2 t) tgt
  | _, _, _, tgt => tgt

/-- All flat indices touched by a gather/scatter invocation with the given
accumulated offset and shape/stride list, in traversal order. -/
def indexList : Nat → List (Nat × Nat) → List Nat
  | offset, [(s, st)] => (List.range (s % M)).map fun i => (offset + i * st) % M
  | offset, (s, st) :: d :: dims =>
      (List.range s).flatMap fun i => indexList (offset + i * st) (d :: dims)
  | _, [] => []

/-- Structural compatibility of a logical array with a shape/stride list:
each `node` level has exactly `shape[d]` components and the depth-1 level
has `shape[last] % 2^32` scalars (the width a gather at that shape makes). -/
def matchesShape : List (Nat × Nat) → NArr α → Bool
  | [(s, _)], .leaf xs => xs.length == s % M
  | (s, _) :: d :: dims, .node as =>
      as.length == s && as.all fun a => matchesShape (d :: dims) a
  | _, _ => false

/-- Element of a nested array at a multi-index. -/
def elemAt : NArr α → List Nat → Option α
  | .leaf xs, [i] => xs[i]?
  | .node as, i :: ix =>
      match as[i]? with
      | some a => elemAt a ix
      | none => none
  | _, _ => none

/-- Untruncated flat index of a multi-index: `offset + Σ_d ix_d * stride_d`. -/
def flatIdx (offset : Nat) : List (Nat × Nat) → List Nat → Nat
  | (_, st) :: dims, i :: ix => flatIdx (offset + i * st) dims ix
  | _, _ => offset

/-- Multi-index bounds for a shape/stride list; the innermost extent is the
`uint32_t`-cast `shape[last] % 2^32` actually used by the copy routines. -/
def inBounds : List (Nat × Nat) → List Nat → Bool
  | [(s, _)], [i] => i < s % M
  | (s, _) :: d :: dims, i :: ix => i < s && inBounds (d :: dims) ix
  | _, _ => false

/-- Outermost size of a logical array, modelling `a.size()` of the bound
array type: the dynamic width at depth 1, the static component count at
higher depth. -/
def nsize : NArr α → Nat
  | .leaf xs => xs.length
  | .node as => as.length

/-- Embedding of the bound `__getitem__` lambda (common.h lines 126-130):
`if (index >= a.size()) throw py::index_error(); return a.coeff(index);`.
`none` models the raised `index_error`; a scalar or a component is the
returned `Value`. -/
def getitem (a : NArr α) (index : Nat) : Option (α ⊕ NArr α) :=
  if index ≥ nsize a then none
  else
    match a with
    | .leaf xs => xs[index]?.map Sum.inl
    | .node as => as[index]?.map Sum.inr

/-- C++ scalar types distinguishable by the tests in `torch_dtype`
(common.h lines 306-331): `enoki::half`, `float`, `double`, an integral
type with its byte size and signedness, or any other type with its size. -/
inductive ScalarType where
  | half
  | float
  | double
  | int (bytes : Nat) (signed : Bool)
  | other (bytes : Nat)
deriving DecidableEq

/-- Embedding of `torch_dtype` (common.h lines 306-331): the dtype name
looked up on the torch module, or `none` for the thrown
`std::runtime_error("pytorch_dtype(): Unsupported type")`. -/
def torch_dtype : ScalarType → Option String
  | .half => some "float16"
  | .float => some "float32"
  | .double => some "float64"
  | .int bytes signed =>
      if bytes = 1 then some (if signed then "int8" else "uint8")
      else if bytes = 2 then some "int16"
      else if bytes = 4 then some "int32"
      else if bytes = 8 then some "int64"
      else none
  | .other _ => none

/-- Character-list version of the test whether `pat` occurs at the head. -/
def leadMatch : List Char → List Char → Bool
  | [], _ => true
  | _ :: _, [] => false
  | a :: as, b :: bs => a == b && leadMatch as bs

/-- Substring occurrence test on character lists, modelling
`std::string::find(pat) != npos`. -/
def hasSub (pat : List Char) : List Char → Bool
  | [] => pat.isEmpty
  | c :: rest => leadMatch pat (c :: rest) || hasSub pat rest

/-- Character list of the pattern "Tensor" searched for in the type name. -/
def tensorPat : List Char := "Tensor".toList

/-- Test `type_name.find("Tensor") != std::string::npos` on a type name. -/
def nameOk (nm : String) : Bool := hasSub tensorPat nm.toList

/-- Metadata and memory of a foreign torch tensor as probed by the binding
layer: `__name__` of its type, `.shape`, `.stride()`, `.dtype`, and the
flat memory reachable from `.data_ptr()`. -/
structure TorchTensor (α : Type) where
  tyname : String
  shape : List Nat
  strides : List Nat
  dtype : String
  data : Nat → α

/-- Embedding of `torch_to_enoki` (common.h lines 407-436): reject unless
the type name contains "Tensor"; reject unless the rank equals the target
depth and the dtype is the target dtype; otherwise reverse shape and
strides once and gather from the mapped memory at offset 0. `none` models
the thrown `py::reference_cast_error`. -/
def torch_to_enoki (Depth : Nat) (targetDtype : String) (src : TorchTensor α) :
    Option (NArr α) :=
  if !nameOk src.tyname then none
  else if src.shape.length ≠ Depth || src.dtype ≠ targetDtype then none
  else some (copy_array_gather src.data 0 (src.shape.reverse.zip src.strides.reverse))

/-- Freshly allocated torch tensor as returned by `torch.empty`: its
`.stride()` (in torch dimension order, chosen by torch) and the initial
content of its memory. -/
structure TorchAlloc (α : Type) where
  strides : List Nat
  init : Nat → α

/-- Embedding of `enoki_to_torch` (common.h lines 375-405): a tensor of the
reversed shape is allocated, its strides are queried and reversed once, and
the logical array is scattered into its memory with the unreversed logical
shape paired with the reversed strides, at offset 0. Returns the tensor
shape and its memory after the scatter. -/
def enoki_to_torch (shape : List Nat) (alloc : TorchAlloc α) (src : NArr α) :
    List Nat × (Nat → α) :=
  (shape.reverse,
   copy_array_scatter 0 (shape.zip alloc.strides.reverse) src alloc.init)

/-! ### Helper lemmas about the write layer -/

theorem writeList_ne {α : Type} (l : List (Nat × α)) (tgt : Nat → α) (k : Nat)
    (h : k ∉ l.map Prod.fst) : writeList l tgt k = tgt k := by
  induction l generalizing tgt with
  | nil => rfl
  | cons p rest ih =>
    obtain ⟨p1, p2⟩ := p
    simp only [List.map_cons, List.mem_cons, not_or] at h
    rw [writeList, ih _ h.2, Function.update_noteq h.1]

theorem writeList_mem {α : Type} (l : List (Nat × α)) (tgt : Nat → α) (k : Nat) (v : α)
    (hnd : (l.map Prod.fst).Nodup) (hm : (k, v) ∈ l) : writeList l tgt k = v := by
  induction l generalizing tgt with
  | nil => cases hm
  | cons p rest ih =>
    obtain ⟨p1, p2⟩ := p
    simp only [List.map_cons, List.nodup_cons] at hnd
    rcases List.mem_cons.mp hm with h | h
    · cases h
      rw [writeList, writeList_ne _ _ _ hnd.1, Function.update_same]
    · rw [writeList]
      exact ih _ hnd.2 h

theorem foldl_pres {α β : Type} (f : (Nat → α) → β → Nat → α) (k : Nat)
    (ps : List β) :
    ∀ (tgt : Nat → α), (∀ t p, p ∈ ps → f t p k = t k) →
      (ps.foldl f tgt) k = tgt k := by
  induction ps with
  | nil => intro tgt _; rfl
  | cons p rest ih =>
    intro tgt h
    rw [List.foldl_cons, ih _ fun t q hq => h t q (List.mem_cons_of_mem _ hq),
        h _ _ (List.mem_cons_self _ _)]

/-- Frame property of the scatter recursion: a flat location not in the
index set of the invocation is left unchanged. -/
theorem scatter_frame {α : Type} (dims : List (Nat × Nat)) :
    ∀ (offset : Nat) (A : NArr α) (tgt : Nat → α) (k : Nat),
      k ∉ indexList offset dims →
      copy_array_scatter offset dims A tgt k = tgt k := by
  induction dims with
  | nil =>
    intro offset A tgt k _
    cases A <;> rfl
  | cons hd tl ih =>
    obtain ⟨s, st⟩ := hd
    cases tl with
    | nil =>
      intro offset A tgt k h
      cases A with
      | node as => rfl
      | leaf xs =>
        rw [copy_array_scatter]
        apply writeList_ne
        intro hk
        apply h
        rcases List.mem_map.mp hk with ⟨p, hp, rfl⟩
        exact (List.of_mem_zip hp).1
    | cons d rest =>
      intro offset A tgt k h
      cases A with
      | leaf xs => rfl
      | node as =>
        rw [copy_array_scatter]
        apply foldl_pres
        intro t p hp
        obtain ⟨p1, p2⟩ := p
        apply ih
        intro hk
        apply h
        rw [indexList, List.mem_flatMap]
        exact ⟨p1, (List.of_mem_zip hp).1, hk⟩

/-- A gather reads the source only at the flat locations in its index set. -/
theorem gather_congr {α : Type} (dims : List (Nat × Nat)) :
    ∀ (offset : Nat) (t1 t2 : Nat → α),
      (∀ k ∈ indexList offset dims, t1 k = t2 k) →
      copy_array_gather t1 offset dims = copy_array_gather t2 offset dims := by
  induction dims with
  | nil => intro offset t1 t2 _; rfl
  | cons hd tl ih =>
    obtain ⟨s, st⟩ := hd
    cases tl with
    | nil =>
      intro offset t1 t2 h
      simp only [copy_array_gather, NArr.leaf.injEq]
      apply List.map_congr_left
      intro i hi
      exact h _ (List.mem_map_of_mem _ hi)
    | cons d rest =>
      intro offset t1 t2 h
      simp only [copy_array_gather, NArr.node.injEq]
      apply List.map_congr_left
      intro i hi
      apply ih
      intro k hk
      exact h k (by rw [indexList, List.mem_flatMap]; exact ⟨i, hi, hk⟩)

/-- Elementwise effect of the gather recursion: the element stored at an
in-bounds multi-index is the source value at the accumulated flat index
truncated to 32 bits. -/
theorem gather_elem {α : Type} (dims : List (Nat × Nat)) :
    ∀ (offset : Nat) (src : Nat → α) (ix : List Nat),
      inBounds dims ix = true →
      elemAt (copy_array_gather src offset dims) ix
        = some (src (flatIdx offset dims ix % M)) := by
  induction dims with
  | nil =>
    intro offset src ix h
    cases ix <;> simp [inBounds] at h
  | cons hd tl ih =>
    obtain ⟨s, st⟩ := hd
    cases tl with
    | nil =>
      intro offset src ix h
      match ix with
      | [] => simp [inBounds] at h
      | i :: j :: ix' => simp [inBounds] at h
      | [i] =>
        simp only [inBounds, decide_eq_true_eq] at h
        simp only [copy_array_gather, elemAt, flatIdx]
        rw [List.getElem?_map, List.getElem?_range h]
        rfl
    | cons d rest =>
      intro offset src ix h
      match ix with
      | [] => simp [inBounds] at h
      | i :: ix' =>
        simp only [inBounds, Bool.and_eq_true, decide_eq_true_eq] at h
        simp only [copy_array_gather, elemAt, flatIdx]
        rw [List.getElem?_map, List.getElem?_range h.1]
        exact ih _ _ _ h.2

/-- The index set of an invocation is exactly the set of truncated flat
indices of in-bounds multi-indices. -/
theorem mem_indexList {dims : List (Nat × Nat)} :
    ∀ (offset k : Nat),
      k ∈ indexList offset dims ↔
        ∃ ix, inBounds dims ix = true ∧ flatIdx offset dims ix % M = k := by
  induction dims with
  | nil =>
    intro offset k
    simp only [indexList, List.not_mem_nil, false_iff, not_exists, not_and]
    intro ix h
    cases ix <;> simp [inBounds] at h
  | cons hd tl ih =>
    obtain ⟨s, st⟩ := hd
    cases tl with
    | nil =>
      intro offset k
      simp only [indexList, List.mem_map, List.mem_range]
      constructor
      · rintro ⟨i, hi, rfl⟩
        exact ⟨[i], by simp [inBounds, hi], rfl⟩
      · rintro ⟨ix, hb, rfl⟩
        match ix with
        | [] => simp [inBounds] at hb
        | i :: j :: ix' => simp [inBounds] at hb
        | [i] =>
          simp only [inBounds, decide_eq_true_eq] at hb
          exact ⟨i, hb, rfl⟩
    | cons d rest =>
      intro offset k
      simp only [indexList, List.mem_flatMap, List.mem_range]
      constructor
      · rintro ⟨i, hi, hk⟩
        rcases (ih _ _).mp hk with ⟨ix', hb, rfl⟩
        exact ⟨i :: ix', by simp [inBounds, hi, hb], rfl⟩
      · rintro ⟨ix, hb, rfl⟩
        match ix with
        | [] => simp [inBounds] at hb
        | i :: ix' =>
          simp only [inBounds, Bool.and_eq_true, decide_eq_true_eq] at hb
          exact ⟨i, hb.1, (ih _ _).mpr ⟨ix', hb.2, rfl⟩⟩

/-- A gather always produces an array structurally matching its shape
argument. -/
theorem gather_matchesShape {α : Type} (dims : List (Nat × Nat)) (hne : dims ≠ []) :
    ∀ (offset : Nat) (src : Nat → α),
      matchesShape dims (copy_array_gather src offset dims) = true := by
  induction dims with
  | nil => exact absurd rfl hne
  | cons hd tl ih =>
    obtain ⟨s, st⟩ := hd
    cases tl with
    | nil =>
      intro offset src
      simp [copy_array_gather, matchesShape]
    | cons d rest =>
      intro offset src
      simp only [copy_array_gather, matchesShape, Bool.and_eq_true, beq_iff_eq,
        List.length_map, List.length_range, List.all_eq_true]
      refine ⟨trivial, ?_⟩
      intro a ha
      rcases List.mem_map.mp ha with ⟨i, _, rfl⟩
      exact ih (by simp) _ _

theorem flatMap_zip_fst {α : Type} (g : Nat → List Nat) :
    ∀ (l1 : List Nat) (l2 : List (NArr α)), l1.length ≤ l2.length →
      ((l1.zip l2).flatMap fun p => g p.1) = l1.flatMap g := by
  intro l1
  induction l1 with
  | nil => intro l2 _; rfl
  | cons i l1 ih =>
    intro l2 hl
    cases l2 with
    | nil => simp at hl
    | cons a l2 =>
      simp only [List.zip_cons_cons, List.flatMap_cons]
      rw [ih l2 (by simpa using hl)]

/-- Round trip for the children of one `node` level, processed left to
right by the scatter fold: each child gathers back provided the flat index
sets of all children are jointly duplicate-free. -/
theorem roundtrip_children {α : Type} (st : Nat) (d : Nat × Nat) (rest : List (Nat × Nat))
    (IH : ∀ (offset : Nat) (A : NArr α) (tgt : Nat → α),
        matchesShape (d :: rest) A = true →
        (indexList offset (d :: rest)).Nodup →
        copy_array_gather (copy_array_scatter offset (d :: rest) A tgt) offset (d :: rest) = A)
    (offset : Nat) :
    ∀ (ps : List (Nat × NArr α)) (tgt : Nat → α),
      (ps.flatMap fun p => indexList (offset + p.1 * st) (d :: rest)).Nodup →
      (∀ p ∈ ps, matchesShape (d :: rest) p.2 = true) →
      ∀ p ∈ ps,
        copy_array_gather
          (ps.foldl (fun t q => copy_array_scatter (offset + q.1 * st) (d :: rest) q.2 t) tgt)
          (offset + p.1 * st) (d :: rest) = p.2 := by
  intro ps
  induction ps with
  | nil => intro tgt _ _ p hp; cases hp
  | cons q qs ih =>
    intro tgt hnd hm p hp
    rw [List.flatMap_cons, List.nodup_append] at hnd
    obtain ⟨hnd1, hnd2, hdisj⟩ := hnd
    rw [List.foldl_cons]
    rcases List.mem_cons.mp hp with rfl | hp'
    · rw [gather_congr _ _ _
        (copy_array_scatter (offset + p.1 * st) (d :: rest) p.2 tgt)
        (fun k hk => foldl_pres _ _ _ _ (fun t r hr =>
          scatter_frame _ _ _ _ _ (fun hkr =>
            hdisj hk (List.mem_flatMap.mpr ⟨r, hr, hkr⟩))))]
      exact IH _ _ _ (hm p (List.mem_cons_self _ _)) hnd1
    · exact ih _ hnd2 (fun r hr => hm r (List.mem_cons_of_mem _ hr)) p hp'

/-- Round trip of the strided copy: scattering a structurally matching
array and gathering with the same shape/stride list restores the array,
provided the invocation's flat index list has no duplicates. -/
theorem roundtrip_aux {α : Type} (dims : List (Nat × Nat)) :
    ∀ (offset : Nat) (A : NArr α) (tgt : Nat → α),
      matchesShape dims A = true →
      (indexList offset dims).Nodup →
      copy_array_gather (copy_array_scatter offset dims A tgt) offset dims = A := by
  induction dims with
  | nil =>
    intro offset A tgt h _
    cases A <;> simp [matchesShape] at h
  | cons hd tl ih =>
    obtain ⟨s, st⟩ := hd
    cases tl with
    | nil =>
      intro offset A tgt h hnd
      cases A with
      | node as => simp [matchesShape] at h
      | leaf xs =>
        simp only [matchesShape, beq_iff_eq] at h
        simp only [copy_array_scatter, copy_array_gather, NArr.leaf.injEq]
        apply List.ext_getElem (by simp [h])
        intro i h1 h2
        simp only [List.getElem_map, List.getElem_range]
        have h1' : i < s % M := by simpa using h1
        apply writeList_mem
        · rw [List.map_fst_zip _ _ (by simp [h])]
          exact hnd
        · rw [List.mem_iff_getElem]
          refine ⟨i, by simp [h]; omega, ?_⟩
          rw [List.getElem_zip]
          simp
    | cons d rest =>
      intro offset A tgt h hnd
      cases A with
      | leaf xs => simp [matchesShape] at h
      | node as =>
        simp only [matchesShape, Bool.and_eq_true, beq_iff_eq, List.all_eq_true] at h
        obtain ⟨hlen, hall⟩ := h
        simp only [copy_array_scatter, copy_array_gather, NArr.node.injEq]
        apply List.ext_getElem (by simp [hlen])
        intro i h1 h2
        simp only [List.getElem_map, List.getElem_range]
        have hz : ((List.range s).zip as).flatMap
            (fun p => indexList (offset + p.1 * st) (d :: rest))
              = indexList offset ((s, st) :: d :: rest) := by
          rw [indexList,
            flatMap_zip_fst (fun i => indexList (offset + i * st) (d :: rest)) _ _
              (by simp [hlen])]
        have hmem : (i, as[i]) ∈ (List.range s).zip as := by
          rw [List.mem_iff_getElem]
          refine ⟨i, by simp [hlen]; omega, ?_⟩
          rw [List.getElem_zip]
          simp
        have := roundtrip_children st d rest ih offset ((List.range s).zip as) tgt
          (by rw [hz]; exact hnd)
          (fun p hp => hall p.2 (List.of_mem_zip hp).2)
          (i, as[i]) hmem
        simpa using this

/-- Elementwise effect of the scatter recursion, derived from the round
trip: under the same side conditions the value written at the truncated
flat index of an in-bounds multi-index is the array element there. -/
theorem scatter_elem {α : Type} (dims : List (Nat × Nat)) (offset : Nat)
    (A : NArr α) (tgt : Nat → α) (ix : List Nat)
    (hsh : matchesShape dims A = true) (hnd : (indexList offset dims).Nodup)
    (hb : inBounds dims ix = true) :
    some (copy_array_scatter offset dims A tgt (flatIdx offset dims ix % M))
      = elemAt A ix := by
  have h2 := gather_elem dims offset (copy_array_scatter offset dims A tgt) ix hb
  rw [roundtrip_aux dims offset A tgt hsh hnd] at h2
  exact h2.symm

/-! ### Claim theorems -/

/-- C1: for every logical array of depth 1-4 and every element type,
scattering it into an external buffer with a given shape/stride list and
gathering back with the same shape and strides restores the array
bit-for-bit, provided the array structurally matches the shape and the
shape/stride combination addresses distinct flat locations (the spec makes
inconsistent shape/stride/offset combinations the caller's
responsibility). -/
theorem gather_scatter_roundtrip {α : Type} (dims : List (Nat × Nat))
    (offset : Nat) (A : NArr α) (tgt : Nat → α)
    (_hdepth : 1 ≤ dims.length ∧ dims.length ≤ 4)
    (hsh : matchesShape dims A = true)
    (hinj : (indexList offset dims).Nodup) :
    copy_array_gather (copy_array_scatter offset dims A tgt) offset dims = A :=
  roundtrip_aux dims offset A tgt hsh hinj

/-- Witness for C1: a depth-2 array of shape (2,3) with row-major strides
(3,1) survives the scatter/gather round trip. -/
theorem gather_scatter_roundtrip_witness :
    (1 ≤ ([((2:Nat), (3:Nat)), (3, 1)]).length ∧ ([((2:Nat), (3:Nat)), (3, 1)]).length ≤ 4)
    ∧ matchesShape [(2, 3), (3, 1)]
        (NArr.node [.leaf [10, 11, 12], .leaf [(20:Nat), 21, 22]]) = true
    ∧ (indexList 0 [(2, 3), (3, 1)]).Nodup
    ∧ copy_array_gather
        (copy_array_scatter 0 [(2, 3), (3, 1)]
          (NArr.node [.leaf [10, 11, 12], .leaf [(20:Nat), 21, 22]]) (fun _ => 0))
        0 [(2, 3), (3, 1)]
      = NArr.node [.leaf [10, 11, 12], .leaf [(20:Nat), 21, 22]] :=
  ⟨⟨by decide, by decide⟩, by decide, by decide,
    gather_scatter_roundtrip [(2, 3), (3, 1)] 0
      (NArr.node [.leaf [10, 11, 12], .leaf [(20:Nat), 21, 22]]) (fun _ => 0)
      ⟨by decide, by decide⟩ (by decide) (by decide)⟩

/-- C3: elementwise contract of the two copy recursions. At any in-bounds
multi-index the gather stores the source value at the accumulated flat
index `offset + Σ_d ix_d * stride_d`, and the scatter (the mirror, with
source and target roles swapped) writes the array element at that
multi-index to the same flat target location; stated in the truncation-free
regime where the flat index stays below 2^32. -/
theorem copy_recursion_elementwise {α : Type} (dims : List (Nat × Nat)) (offset : Nat)
    (src : Nat → α) (A : NArr α) (tgt : Nat → α) (ix : List Nat)
    (hb : inBounds dims ix = true)
    (hsmall : flatIdx offset dims ix < M)
    (hsh : matchesShape dims A = true)
    (hnd : (indexList offset dims).Nodup) :
    elemAt (copy_array_gather src offset dims) ix = some (src (flatIdx offset dims ix))
    ∧ some (copy_array_scatter offset dims A tgt (flatIdx offset dims ix)) = elemAt A ix := by
  have e := gather_elem dims offset src ix hb
  have s' := scatter_elem dims offset A tgt ix hsh hnd hb
  rw [Nat.mod_eq_of_lt hsmall] at e s'
  exact ⟨e, s'⟩

/-- Witness for C3: depth-2 shape (2,3), strides (3,1), multi-index (1,2),
flat index 5. -/
theorem copy_recursion_elementwise_witness :
    (inBounds [(2, 3), (3, 1)] [1, 2] = true
      ∧ flatIdx 0 [(2, 3), (3, 1)] [1, 2] < M
      ∧ matchesShape [(2, 3), (3, 1)]
          (NArr.node [.leaf [10, 11, 12], .leaf [(20:Nat), 21, 22]]) = true
      ∧ (indexList 0 [(2, 3), (3, 1)]).Nodup)
    ∧ elemAt (copy_array_gather (fun k => k) 0 [(2, 3), (3, 1)]) [1, 2]
        = some ((fun k => k) (flatIdx 0 [(2, 3), (3, 1)] [1, 2]))
    ∧ some (copy_array_scatter 0 [(2, 3), (3, 1)]
          (NArr.node [.leaf [10, 11, 12], .leaf [(20:Nat), 21, 22]]) (fun _ => 0)
          (flatIdx 0 [(2, 3), (3, 1)] [1, 2]))
        = elemAt (NArr.node [.leaf [10, 11, 12], .leaf [(20:Nat), 21, 22]]) [1, 2] :=
  ⟨⟨by decide, by decide, by decide, by decide⟩,
    (copy_recursion_elementwise [(2, 3), (3, 1)] 0 (fun k => k)
      (NArr.node [.leaf [10, 11, 12], .leaf [(20:Nat), 21, 22]]) (fun _ => 0) [1, 2]
      (by decide) (by decide) (by decide) (by decide)).1,
    (copy_recursion_elementwise [(2, 3), (3, 1)] 0 (fun k => k)
      (NArr.node [.leaf [10, 11, 12], .leaf [(20:Nat), 21, 22]]) (fun _ => 0) [1, 2]
      (by decide) (by decide) (by decide) (by decide)).2⟩

/-- C5: a scatter invocation writes only at flat locations of the form
`offset + Σ_d ix_d * stride_d` for in-bounds multi-indices; every other
flat location of the target keeps its previous content. Stated in the
truncation-free regime where all flat indices stay below 2^32; the target
is a total map over flat addresses, so no resizing or reallocation can
occur. -/
theorem scatter_frame_only_strided_indices {α : Type} (dims : List (Nat × Nat))
    (offset : Nat) (A : NArr α) (tgt : Nat → α) (k : Nat)
    (hsmall : ∀ ix, inBounds dims ix = true → flatIdx offset dims ix < M)
    (h : ∀ ix, inBounds dims ix = true → flatIdx offset dims ix ≠ k) :
    copy_array_scatter offset dims A tgt k = tgt k := by
  apply scatter_frame
  intro hk
  rcases (mem_indexList _ _).mp hk with ⟨ix, hb, hke⟩
  exact h ix hb ((Nat.mod_eq_of_lt (hsmall ix hb)).symm.trans hke)

/-- Witness for C5: with shape (2,3) and strides (3,1) at offset 0 the flat
location 6 is untouched. -/
theorem scatter_frame_only_strided_indices_witness :
    (∀ ix, inBounds [((2:Nat), (3:Nat)), (3, 1)] ix = true →
        flatIdx 0 [(2, 3), (3, 1)] ix < M)
    ∧ (∀ ix, inBounds [((2:Nat), (3:Nat)), (3, 1)] ix = true →
        flatIdx 0 [(2, 3), (3, 1)] ix ≠ 6)
    ∧ copy_array_scatter 0 [(2, 3), (3, 1)]
        (NArr.node [.leaf [10, 11, 12], .leaf [(20:Nat), 21, 22]]) (fun _ => 77) 6 = 77 := by
  have hs : ∀ ix, inBounds [((2:Nat), (3:Nat)), (3, 1)] ix = true →
      flatIdx 0 [(2, 3), (3, 1)] ix < M := by
    intro ix hb
    match ix with
    | [] => simp [inBounds] at hb
    | [i] => simp [inBounds] at hb
    | i :: j :: k :: ix' => simp [inBounds] at hb
    | [i, j] =>
      simp only [inBounds, Bool.and_eq_true, decide_eq_true_eq, M] at hb
      simp only [flatIdx, M]
      omega
  have hn : ∀ ix, inBounds [((2:Nat), (3:Nat)), (3, 1)] ix = true →
      flatIdx 0 [(2, 3), (3, 1)] ix ≠ 6 := by
    intro ix hb
    match ix with
    | [] => simp [inBounds] at hb
    | [i] => simp [inBounds] at hb
    | i :: j :: k :: ix' => simp [inBounds] at hb
    | [i, j] =>
      simp only [inBounds, Bool.and_eq_true, decide_eq_true_eq, M] at hb
      simp only [flatIdx]
      omega
  exact ⟨hs, hn,
    scatter_frame_only_strided_indices [(2, 3), (3, 1)] 0
      (NArr.node [.leaf [10, 11, 12], .leaf [(20:Nat), 21, 22]]) (fun _ => 77) 6 hs hn⟩

/-- C7: the bound `__getitem__` raises `index_error` (returns no element)
whenever the index is at least the array size, and returns an element
exactly when the index is within the extent, so it never reads past it. -/
theorem getitem_out_of_range {α : Type} (a : NArr α) (index : Nat) :
    (index ≥ nsize a → getitem a index = none)
    ∧ (index < nsize a → (getitem a index).isSome = true) := by
  constructor
  · intro h
    rw [getitem.eq_def, if_pos h]
  · intro h
    rw [getitem.eq_def, if_neg (by omega)]
    cases a with
    | leaf xs =>
      rw [nsize] at h
      simp [List.getElem?_eq_getElem h]
    | node as =>
      rw [nsize] at h
      simp [List.getElem?_eq_getElem h]

/-- Witness for C7: index 5 on a two-element depth-1 array is rejected, and
index 1 is served. -/
theorem getitem_out_of_range_witness :
    (5 ≥ nsize (NArr.leaf [(1:Nat), 2])
      ∧ getitem (NArr.leaf [(1:Nat), 2]) 5 = none)
    ∧ (1 < nsize (NArr.leaf [(1:Nat), 2])
      ∧ (getitem (NArr.leaf [(1:Nat), 2]) 1).isSome = true) :=
  ⟨⟨by decide, (getitem_out_of_range (NArr.leaf [(1:Nat), 2]) 5).1 (by decide)⟩,
   ⟨by decide, (getitem_out_of_range (NArr.leaf [(1:Nat), 2]) 1).2 (by decide)⟩⟩

/-- C8: `torch_dtype` refuses (throws the fatal "Unsupported type" runtime
error, modelled by `none`) every scalar type that is not half, float,
double, or an integral type of 1, 2, 4 or 8 bytes. -/
theorem torch_dtype_unsupported_fatal (t : ScalarType)
    (h : t ≠ .half ∧ t ≠ .float ∧ t ≠ .double ∧
        ∀ b s, t = .int b s → b ≠ 1 ∧ b ≠ 2 ∧ b ≠ 4 ∧ b ≠ 8) :
    torch_dtype t = none := by
  obtain ⟨h1, h2, h3, h4⟩ := h
  cases t with
  | half => exact absurd rfl h1
  | float => exact absurd rfl h2
  | double => exact absurd rfl h3
  | other b => rfl
  | int b s =>
    obtain ⟨n1, n2, n4, n8⟩ := h4 b s rfl
    simp [torch_dtype, n1, n2, n4, n8]

/-- Witness for C8: a 16-byte integral scalar is rejected. -/
theorem torch_dtype_unsupported_fatal_witness :
    (ScalarType.int 16 true ≠ .half ∧ ScalarType.int 16 true ≠ .float
      ∧ ScalarType.int 16 true ≠ .double
      ∧ ∀ b s, ScalarType.int 16 true = .int b s →
          b ≠ 1 ∧ b ≠ 2 ∧ b ≠ 4 ∧ b ≠ 8)
    ∧ torch_dtype (.int 16 true) = none :=
  ⟨⟨by decide, by decide, by decide, by intro b s h; cases h; decide⟩,
   torch_dtype_unsupported_fatal (.int 16 true)
     ⟨by decide, by decide, by decide, by intro b s h; cases h; decide⟩⟩

/-- C10: `torch_dtype` collapses signedness for 2-, 4- and 8-byte integral
scalars onto the signed dtype names, distinguishing signedness only at one
byte; consequently the conversion entry point behaves identically for an
unsigned target scalar and for the signed scalar of the same width. -/
theorem torch_dtype_signedness_collapse :
    (∀ s : Bool, torch_dtype (.int 2 s) = some "int16")
    ∧ (∀ s : Bool, torch_dtype (.int 4 s) = some "int32")
    ∧ (∀ s : Bool, torch_dtype (.int 8 s) = some "int64")
    ∧ torch_dtype (.int 1 true) = some "int8"
    ∧ torch_dtype (.int 1 false) = some "uint8"
    ∧ (∀ (α : Type) (Depth : Nat) (src : TorchTensor α),
        torch_to_enoki Depth ((torch_dtype (.int 4 false)).getD "") src
          = torch_to_enoki Depth ((torch_dtype (.int 4 true)).getD "") src)
    ∧ (∀ (α : Type) (Depth : Nat) (src : TorchTensor α),
        torch_to_enoki Depth ((torch_dtype (.int 8 false)).getD "") src
          = torch_to_enoki Depth ((torch_dtype (.int 8 true)).getD "") src) :=
  ⟨fun s => by cases s <;> rfl,
   fun s => by cases s <;> rfl,
   fun s => by cases s <;> rfl,
   rfl, rfl,
   fun α Depth src => rfl,
   fun α Depth src => rfl⟩

/-- C2: both conversion directions reverse the external shape/stride arrays
exactly once, so for a depth-2 logical array of shape (2,3) (torch tensor
shape (3,2), contiguous torch strides (2,1)) the element at logical
position (row, col) corresponds to external flat offset `col * 2 + row`
— in particular (0,2) lands at offset 4 instead of being transposed. The
first conjunct records the reversed tensor shape produced by
`enoki_to_torch`, the second where its scatter puts each element, the
third the reversed dims with which `torch_to_enoki` gathers, and the
fourth which flat offset each gathered element comes from. -/
theorem reversal_nonsquare_mapping {α : Type} (a b c d e f : α) (dt : String)
    (data init : Nat → α) (row col : Nat) (hr : row < 2) (hc : col < 3) :
    (enoki_to_torch [2, 3] ⟨[2, 1], init⟩
        (NArr.node [.leaf [a, b, c], .leaf [d, e, f]])).1 = [3, 2]
    ∧ some ((enoki_to_torch [2, 3] ⟨[2, 1], init⟩
          (NArr.node [.leaf [a, b, c], .leaf [d, e, f]])).2 (col * 2 + row))
        = elemAt (NArr.node [.leaf [a, b, c], .leaf [d, e, f]]) [row, col]
    ∧ torch_to_enoki 2 dt ⟨"Tensor", [3, 2], [2, 1], dt, data⟩
        = some (copy_array_gather data 0 [(2, 1), (3, 2)])
    ∧ elemAt (copy_array_gather data 0 [(2, 1), (3, 2)]) [row, col]
        = some (data (col * 2 + row)) := by
  have hb : inBounds [(2, 1), (3, 2)] [row, col] = true := by
    simp only [inBounds, Bool.and_eq_true, decide_eq_true_eq, M]
    omega
  have hf : flatIdx 0 [(2, 1), (3, 2)] [row, col] % M = col * 2 + row := by
    simp only [flatIdx, M]
    omega
  refine ⟨rfl, ?_, ?_, ?_⟩
  · have h := scatter_elem [(2, 1), (3, 2)] 0
      (NArr.node [.leaf [a, b, c], .leaf [d, e, f]]) init [row, col]
      (by rfl) (by decide) hb
    rw [hf] at h
    exact h
  · have h1 : (!nameOk "Tensor") = false := by decide
    simp only [torch_to_enoki, h1, Bool.false_eq_true, if_false, ne_eq,
      List.length_cons, List.length_nil]
    simp
  · have h := gather_elem [(2, 1), (3, 2)] 0 data [row, col] hb
    rw [hf] at h
    exact h

/-- Witness for C2: the concrete shape-(2,3) array with elements 10..22 and
logical position (0,2): its value 12 sits at external flat offset 4. -/
theorem reversal_nonsquare_mapping_witness :
    ((0:Nat) < 2 ∧ (2:Nat) < 3)
    ∧ some ((enoki_to_torch [2, 3] ⟨[2, 1], fun _ => 0⟩
          (NArr.node [.leaf [10, 11, 12], .leaf [(20:Nat), 21, 22]])).2 (2 * 2 + 0))
        = elemAt (NArr.node [.leaf [10, 11, 12], .leaf [(20:Nat), 21, 22]]) [0, 2]
    ∧ torch_to_enoki 2 "int64" ⟨"Tensor", [3, 2], [2, 1], "int64", fun k => k⟩
        = some (copy_array_gather (fun k => k) 0 [(2, 1), (3, 2)])
    ∧ elemAt (copy_array_gather (fun k => (k:Nat)) 0 [(2, 1), (3, 2)]) [0, 2]
        = some ((fun k => k) (2 * 2 + 0)) :=
  ⟨⟨by decide, by decide⟩,
   (reversal_nonsquare_mapping 10 11 12 (20:Nat) 21 22 "int64" (fun k => k) (fun _ => 0)
      0 2 (by decide) (by decide)).2.1,
   (reversal_nonsquare_mapping 10 11 12 (20:Nat) 21 22 "int64" (fun k => k) (fun _ => 0)
      0 2 (by decide) (by decide)).2.2.1,
   (reversal_nonsquare_mapping 10 11 12 (20:Nat) 21 22 "int64" (fun k => k) (fun _ => 0)
      0 2 (by decide) (by decide)).2.2.2⟩

/-- C4: `torch_to_enoki` rejects (throws `reference_cast_error`, modelled
by `none`) whenever the type name lacks "Tensor", the rank differs from the
target depth, or the dtype differs from the target dtype — for any content
of the foreign memory, i.e. before any of it is read; and there is no
partial-success state: the result is either `none` or an array fully
populated to the (reversed) declared shape. -/
theorem torch_to_enoki_validation {α : Type} (Depth : Nat) (dt nm dty : String)
    (sh strd : List Nat) (hd : 1 ≤ Depth) (hstrd : strd.length = sh.length) :
    (∀ data : Nat → α,
      (nameOk nm = false ∨ sh.length ≠ Depth ∨ dty ≠ dt) →
      torch_to_enoki Depth dt ⟨nm, sh, strd, dty, data⟩ = none)
    ∧ (∀ data : Nat → α,
        torch_to_enoki Depth dt ⟨nm, sh, strd, dty, data⟩ = none
        ∨ ∃ arr, torch_to_enoki Depth dt ⟨nm, sh, strd, dty, data⟩ = some arr
            ∧ matchesShape (sh.reverse.zip strd.reverse) arr = true) := by
  constructor
  · intro data h
    rcases h with h | h | h
    · simp [torch_to_enoki, h]
    · cases hnm : nameOk nm with
      | false => simp [torch_to_enoki, hnm]
      | true => simp [torch_to_enoki, hnm, h]
    · cases hnm : nameOk nm with
      | false => simp [torch_to_enoki, hnm]
      | true => simp [torch_to_enoki, hnm, h]
  · intro data
    cases hnm : nameOk nm with
    | false => exact Or.inl (by simp [torch_to_enoki, hnm])
    | true =>
      by_cases h1 : sh.length = Depth
      · by_cases h2 : dty = dt
        · right
          refine ⟨copy_array_gather data 0 (sh.reverse.zip strd.reverse),
            by simp [torch_to_enoki, hnm, h1, h2], ?_⟩
          apply gather_matchesShape _ ?_ 0 data
          intro hnil
          have hlz : (sh.reverse.zip strd.reverse).length = 0 := by rw [hnil]; rfl
          rw [List.length_zip, List.length_reverse, List.length_reverse, hstrd, h1,
            Nat.min_self] at hlz
          omega
        · exact Or.inl (by simp [torch_to_enoki, hnm, h2])
      · exact Or.inl (by simp [torch_to_enoki, hnm, h1])

/-- Witness for C4: a rank-1 tensor offered to a depth-2 target is rejected
whatever its memory holds. -/
theorem torch_to_enoki_validation_witness :
    (1 ≤ 2 ∧ ([(7:Nat)] : List Nat).length = ([(5:Nat)] : List Nat).length)
    ∧ ([(5:Nat)] : List Nat).length ≠ 2
    ∧ torch_to_enoki 2 "float32" ⟨"Tensor", [5], [7], "float32", fun _ => (0:Nat)⟩ = none :=
  ⟨⟨by decide, rfl⟩, by decide,
   (torch_to_enoki_validation 2 "float32" "Tensor" "float32" [5] [7]
      (by decide) rfl).1 (fun _ => 0) (Or.inr (Or.inl (by decide)))⟩

/-- C9: the innermost flat-index sequence of both copy routines is computed
in 32-bit unsigned arithmetic: each stored element comes from flat index
`(offset + i * stride) % 2^32`, and adding 2^32 to the accumulated offset,
to the innermost stride, or to the innermost shape extent leaves both the
gather and the scatter unchanged — overlarge values silently wrap instead
of being rejected. -/
theorem index_arith_uint32_wraps {α : Type} (src : Nat → α) (A : NArr α) (tgt : Nat → α)
    (offset s st : Nat) :
    (∀ i, i < s % M →
        elemAt (copy_array_gather src offset [(s, st)]) [i]
          = some (src ((offset + i * st) % M)))
    ∧ copy_array_gather src (offset + M) [(s, st)] = copy_array_gather src offset [(s, st)]
    ∧ copy_array_gather src offset [(s, st + M)] = copy_array_gather src offset [(s, st)]
    ∧ copy_array_gather src offset [(s + M, st)] = copy_array_gather src offset [(s, st)]
    ∧ copy_array_scatter (offset + M) [(s, st)] A tgt
        = copy_array_scatter offset [(s, st)] A tgt
    ∧ copy_array_scatter offset [(s, st + M)] A tgt
        = copy_array_scatter offset [(s, st)] A tgt
    ∧ copy_array_scatter offset [(s + M, st)] A tgt
        = copy_array_scatter offset [(s, st)] A tgt := by
  have hoff : ∀ i : Nat, (offset + M + i * st) % M = (offset + i * st) % M := by
    intro i
    rw [Nat.add_right_comm, Nat.add_mod_right]
  have hst : ∀ i : Nat, (offset + i * (st + M)) % M = (offset + i * st) % M := by
    intro i
    rw [Nat.mul_add, ← Nat.add_assoc, Nat.add_mul_mod_self_right]
  refine ⟨?_, ?_, ?_, ?_, ?_, ?_, ?_⟩
  · intro i hi
    have h := gather_elem [(s, st)] offset src [i]
      (by simp only [inBounds, decide_eq_true_eq]; exact hi)
    simpa only [flatIdx] using h
  · simp only [copy_array_gather, NArr.leaf.injEq]
    exact List.map_congr_left fun i _ => by rw [hoff]
  · simp only [copy_array_gather, NArr.leaf.injEq]
    exact List.map_congr_left fun i _ => by rw [hst]
  · simp only [copy_array_gather]
    rw [Nat.add_mod_right]
  · cases A with
    | node as => rfl
    | leaf xs =>
      have hk : (List.range (s % M)).map (fun i => (offset + M + i * st) % M)
          = (List.range (s % M)).map fun i => (offset + i * st) % M :=
        List.map_congr_left fun i _ => hoff i
      simp only [copy_array_scatter, hk]
  · cases A with
    | node as => rfl
    | leaf xs =>
      have hk : (List.range (s % M)).map (fun i => (offset + i * (st + M)) % M)
          = (List.range (s % M)).map fun i => (offset + i * st) % M :=
        List.map_congr_left fun i _ => hst i
      simp only [copy_array_scatter, hk]
  · cases A with
    | node as => rfl
    | leaf xs =>
      simp only [copy_array_scatter]
      rw [Nat.add_mod_right]

/-- Witness for C9: reading element 1 of a width-2 gather at offset 3 and
stride 5 hits flat index (3 + 5) mod 2^32, and shifting the offset by 2^32
changes nothing. -/
theorem index_arith_uint32_wraps_witness :
    ((1:Nat) < 2 % M
      ∧ elemAt (copy_array_gather (fun k => k) 3 [(2, 5)]) [1]
          = some ((fun k => (k:Nat)) ((3 + 1 * 5) % M)))
    ∧ copy_array_gather (fun k => (k:Nat)) (3 + M) [(2, 5)]
        = copy_array_gather (fun k => k) 3 [(2, 5)] :=
  ⟨⟨by decide,
    (index_arith_uint32_wraps (fun k => (k:Nat)) (.leaf [0]) (fun _ => 0) 3 2 5).1 1
      (by decide)⟩,
   (index_arith_uint32_wraps (fun k => (k:Nat)) (.leaf [0]) (fun _ => 0) 3 2 5).2.1⟩

end Enoki
